import Mathlib

/-!
# Verification of the SHIELDS-PTM flux-mapping engine

Shallow embedding of the flux-mapping core of SHIELDS-PTM
(`scripts/ptm_tools.py`, `scripts/ptm_postprocessing.py`,
`scripts/omni_quicklook_sep.py`) together with theorems settling the
specification claims.

Conventions of the embedding:
* grid data carried by map files (positions, velocities, energies, pitch
  angles) is embedded over `ℚ`, so that grid construction, exact-equality
  cell matching and the threshold masks stay decidable;
* physical flux evaluation (kappa / Maxwell-Jüttner distributions,
  rigidities) is embedded over `ℝ`, since it involves `Real.Gamma`,
  `Real.sqrt`, `Real.rpow` and `Real.pi`;
* numpy arrays of shape `(m, n)` become either explicit index functions
  `ℕ → ℕ → _` together with their dimensions, or `List`s when the source
  iterates over them.
-/

/-- A 3-vector of rationals: one row of position (`final_x`) or velocity
(`init_v`) data from a PTM map file. -/
structure Vec3 where
  x : ℚ
  y : ℚ
  z : ℚ
deriving DecidableEq

/-- Squared Euclidean norm of a `Vec3`.  The source compares
`np.linalg.norm(v) >= 14.99`; for a nonnegative threshold `t` this is
equivalent to `t^2 ≤ normSq v`, which is decidable over `ℚ`. -/
def Vec3.normSq (v : Vec3) : ℚ := v.x * v.x + v.y * v.y + v.z * v.z

/-- Dot product of two `Vec3`s. -/
def Vec3.dot (a b : Vec3) : ℚ := a.x * b.x + a.y * b.y + a.z * b.z

/-- One data row of a PTM map file after `np.loadtxt`: columns are
`[idx, x, y, z, E_source(keV), pitch(deg), E_boundary(keV), vx, vy, vz]`
(`res[icount, 0..9]` in `parse_map_file`). -/
structure Row where
  num : ℚ
  x : ℚ
  y : ℚ
  z : ℚ
  e : ℚ
  pa : ℚ
  ef : ℚ
  vx : ℚ
  vy : ℚ
  vz : ℚ
deriving DecidableEq

/-- Insert a rational into a sorted list, keeping it sorted
(ascending). Auxiliary for `sortQ`. -/
def insertSorted (a : ℚ) : List ℚ → List ℚ
  | [] => [a]
  | b :: t => if a ≤ b then a :: b :: t else b :: insertSorted a t

/-- Insertion sort on rationals: the embedding of `np.sort`. -/
def sortQ : List ℚ → List ℚ :=
  List.foldr insertSorted []

/-- `np.sort(np.unique(column))`: the sorted list of distinct values of a
column, as used by `parse_map_file` to build the energy and pitch-angle
grids (`envec`, `pavec`). -/
def uniqueSorted (l : List ℚ) : List ℚ := sortQ l.dedup

/-- The energy grid discovered by `parse_map_file`:
`envec = np.sort(np.unique(res[:, 4]))`. -/
def envec (rows : List Row) : List ℚ := uniqueSorted (rows.map Row.e)

/-- The pitch-angle grid discovered by `parse_map_file`:
`pavec = np.sort(np.unique(res[:, 5]))`. -/
def pavec (rows : List Row) : List ℚ := uniqueSorted (rows.map Row.pa)

/-- First index of a value in a list, if present: the embedding of
`np.argwhere(value == vec)` for a duplicate-free vector `vec` (in which
case `argwhere` yields at most one index). -/
def findIdxQ (a : ℚ) : List ℚ → Option ℕ
  | [] => none
  | b :: t => if b = a then some 0 else (findIdxQ a t).map (· + 1)

/-- The mutable grids filled by `parse_map_file`'s assembly loop:
`Einit`, `Efinal`, `xfinal`, `vinit`, all initialized with `np.zeros`. -/
structure GridState where
  einit : ℕ → ℕ → ℚ
  efinal : ℕ → ℕ → ℚ
  xfinal : ℕ → ℕ → Vec3
  vinit : ℕ → ℕ → Vec3

/-- The all-zero initial grids (`np.zeros([envec.size, pavec.size])` etc.). -/
def GridState.init : GridState :=
  { einit := fun _ _ => 0
    efinal := fun _ _ => 0
    xfinal := fun _ _ => ⟨0, 0, 0⟩
    vinit := fun _ _ => ⟨0, 0, 0⟩ }

/-- Update one cell of a grid of rationals. -/
def setCell (g : ℕ → ℕ → ℚ) (i j : ℕ) (v : ℚ) : ℕ → ℕ → ℚ :=
  fun i' j' => if i' = i ∧ j' = j then v else g i' j'

/-- Update one cell of a grid of vectors. -/
def setCellV (g : ℕ → ℕ → Vec3) (i j : ℕ) (v : Vec3) : ℕ → ℕ → Vec3 :=
  fun i' j' => if i' = i ∧ j' = j then v else g i' j'

/-- One iteration of `parse_map_file`'s assembly loop: locate the row's
energy and pitch in the discovered grids
(`idex = np.argwhere(res[icount, 4] == envec)`,
`jdex = np.argwhere(res[icount, 5] == pavec)`) and write `init_E`,
`final_E`, `final_x`, `init_v` into that cell.  When either lookup is
empty, the numpy fancy-indexed assignments (`Einit[idex, jdex] = …` with
an empty index array) silently assign nothing, so the row is dropped. -/
def stepRow (env pav : List ℚ) (g : GridState) (r : Row) : GridState :=
  match findIdxQ r.e env, findIdxQ r.pa pav with
  | some i, some j =>
      { einit := setCell g.einit i j r.e
        efinal := setCell g.efinal i j r.ef
        xfinal := setCellV g.xfinal i j ⟨r.x, r.y, r.z⟩
        vinit := setCellV g.vinit i j ⟨r.vx, r.vy, r.vz⟩ }
  | _, _ => g

/-- The full assembly loop of `parse_map_file` over the concatenated
table. -/
def parseMapGrids (rows : List Row) : GridState :=
  rows.foldl (stepRow (envec rows) (pavec rows)) GridState.init

/-- The flux map assembled by `parse_map_file`: the discovered grids, the
observation position from the header, and the four per-cell data grids. -/
structure FluxMap where
  energies : List ℚ
  angles : List ℚ
  position : Vec3
  init_E : ℕ → ℕ → ℚ
  final_E : ℕ → ℕ → ℚ
  final_x : ℕ → ℕ → Vec3
  init_v : ℕ → ℕ → Vec3

/-- Geometric access test on a final position:
`np.linalg.norm(v) >= 14.99` in the source, embedded as the equivalent
squared comparison `14.99² ≤ v⬝v` (both sides nonnegative). -/
def hasAccess (v : Vec3) : Bool := decide ((1499 / 100 : ℚ) ^ 2 ≤ v.normSq)

/-- The fractional-access vector of `cutoffs` (the live `else` branch):
`allow[n] = np.sum(norm(final_x[n], axis=-1) >= 14.99) / len(angles)`. -/
def allowFrac (fm : FluxMap) : List ℚ :=
  (List.range fm.energies.length).map fun n =>
    (((List.range fm.angles.length).countP fun j => hasAccess (fm.final_x n j) : ℕ) : ℚ)
      / (fm.angles.length : ℚ)

/-- `en_mev = fluxmap['energies']/1e3`. -/
def enMev (fm : FluxMap) : List ℚ := fm.energies.map (· / 1000)

/-- `not_forbidden = np.nonzero(allow)[0]`: the indices of the energies with
nonzero access fraction, in ascending order. -/
def notForbidden (fm : FluxMap) : List ℕ :=
  (List.range (allowFrac fm).length).filter fun n => (allowFrac fm).getD n 0 ≠ 0

/-- `full_access = allow > 0.82`. -/
def fullAccess (fm : FluxMap) : List Bool :=
  (allowFrac fm).map fun a => decide ((41 / 50 : ℚ) < a)

/-- Transition indices of the zero-padded indicator vector: `find_runs`
builds `isvalue = [0] ++ (invec == value) ++ [0]` and collects the indices
`i` with `|isvalue[i+1] - isvalue[i]| == 1`.  `prev` carries `isvalue[i]`
while walking the unpadded vector; the trailing pad contributes the final
index when the vector ends on `True`. -/
def edgesAux : Bool → ℕ → List Bool → List ℕ
  | prev, i, [] => if prev then [i] else []
  | prev, i, b :: rest =>
      if b ≠ prev then i :: edgesAux b (i + 1) rest else edgesAux b (i + 1) rest

/-- `.reshape(-1, 2)` of the flat edge-index vector: consecutive indices are
paired into (start, end) rows. -/
def pairUp : List ℕ → List (ℕ × ℕ)
  | a :: b :: rest => (a, b) :: pairUp rest
  | _ => []

/-- `find_runs(invec)` for `value=True`: the (start, end) half-open index
ranges of the maximal contiguous blocks of `True`, in ascending order. -/
def findRuns (l : List Bool) : List (ℕ × ℕ) := pairUp (edgesAux false 0 l)

/-- The indices `k` with `l[k] = True` preceded by the padding zero or by a
`False` — the starts of the maximal contiguous `True` blocks.  `prev` is the
value in front of position `i`, initially `false` (the padding). -/
def risingAux : Bool → ℕ → List Bool → List ℕ
  | _, _, [] => []
  | prev, i, b :: rest =>
      if b ∧ ¬prev then i :: risingAux b (i + 1) rest else risingAux b (i + 1) rest

/-- The run starts of a boolean vector: `risingAux` from the zero padding. -/
def runStarts (l : List Bool) : List ℕ := risingAux false 0 l

/-- The value in front of position `d` of the padded vector `prev :: l`:
`prev` itself for `d = 0`, otherwise `l[d-1]`. -/
def prevAt (prev : Bool) (l : List Bool) : ℕ → Bool
  | 0 => prev
  | e + 1 => l.getD e false

/-- Modelled from the spec: the `Proton` class of `ptm_tools` with its
`getRigidity` method is not under `src/`.  Per spec §4.5, the relativistic
rigidity of a proton of kinetic energy `e` (MeV) and rest energy `mp` (MeV)
is `R(E) = sqrt(E·(E + 2·mc2_p))` in GV. -/
noncomputable def protonRigidity (mp : ℝ) (e : ℝ) : ℝ :=
  Real.sqrt (e * (e + 2 * mp))

/-- Modelled from the spec: `Proton.fromRigidity(r).energy`, the exact
algebraic inverse of `protonRigidity`: `E(R) = sqrt(R² + mp²) − mp`. -/
noncomputable def protonEnergyFromRigidity (mp : ℝ) (r : ℝ) : ℝ :=
  Real.sqrt (r ^ 2 + mp ^ 2) - mp

/-- `idx_high` of `cutoffs`: the start of the last entry of
`find_runs(full_access)` (`find_runs(...)[-1][0]`); when `find_runs` raises
`IndexError` on an empty result the handler sets `idx_high = -1`, the Python
index of the last grid energy. -/
def idxHigh (fm : FluxMap) : ℕ :=
  match (findRuns (fullAccess fm)).getLast? with
  | some p => p.1
  | none => (enMev fm).length - 1

/-- `Nforbid = np.sum(allow*len(fluxmap['angles']))` — the variable name in
the source; kept as-is (what it counts is settled by the theorems). -/
def NforbidSrc (fm : FluxMap) : ℚ :=
  ((allowFrac fm).map (· * (fm.angles.length : ℚ))).sum

/-- `Ntot = len(allow)*len(fluxmap['angles'])`. -/
def NtotSrc (fm : FluxMap) : ℚ :=
  ((allowFrac fm).length : ℚ) * (fm.angles.length : ℚ)

/-- The total number of (energy, pitch) grid cells with geometric access
(final-position magnitude ≥ 14.99 Re). -/
def nAccessCells (fm : FluxMap) : ℕ :=
  ((List.range fm.energies.length).map fun n =>
    (List.range fm.angles.length).countP fun j => hasAccess (fm.final_x n j)).sum

/-- The total number of (energy, pitch) grid cells lacking geometric access:
the `N_forbidden` of the claim's wording. -/
def nForbiddenCells (fm : FluxMap) : ℕ :=
  ((List.range fm.energies.length).map fun n =>
    (List.range fm.angles.length).countP fun j => ¬hasAccess (fm.final_x n j)).sum

/-- The cutoff quantities computed by `cutoffs` (plot handling dropped). -/
structure CutoffResult where
  ecLow : ℚ
  ecHigh : ℚ
  rLow : ℝ
  rHigh : ℝ
  rEff : ℝ
  ecEff : ℝ

/-- The `cutoffs` analysis of `omni_quicklook_sep.py` (its dead `if False:`
binary branch and its plotting side effects dropped).  `idx_low =
not_forbidden[0]` raises `IndexError` when no energy has any access, embedded
as the `Except.error` case.  The proton rest energy `mp` is a parameter of
the embedding because the `Proton` class is modelled from the spec. -/
noncomputable def cutoffs (mp : ℝ) (fm : FluxMap) : Except String CutoffResult :=
  if notForbidden fm = [] then
    .error "IndexError: index 0 is out of bounds for axis 0 with size 0"
  else
    let idxLow := (notForbidden fm).headD 0
    let ecLow := (enMev fm).getD idxLow 0
    let ecHigh := (enMev fm).getD (idxHigh fm) 0
    let rLow := protonRigidity mp (ecLow : ℝ)
    let rHigh := protonRigidity mp (ecHigh : ℝ)
    let rEff := rLow + (rHigh - rLow) * ((NforbidSrc fm : ℝ) / (NtotSrc fm : ℝ))
    .ok { ecLow := ecLow, ecHigh := ecHigh, rLow := rLow, rHigh := rHigh,
          rEff := rEff, ecEff := protonEnergyFromRigidity mp rEff }

/-- The claim's (spec's) stated policy for `ec_high`: the energy at the start
of the FIRST contiguous run of energies whose access fraction exceeds 0.82;
`none` when no run exists. -/
def specEcHighFirstRun (fm : FluxMap) : Option ℚ :=
  match findRuns (fullAccess fm) with
  | [] => none
  | p :: _ => some ((enMev fm).getD p.1 0)

/-- The claim's (spec's) stated formula for the effective rigidity:
`rigidity_low + (rigidity_high − rigidity_low) · N_forbidden/N_total` with
`N_forbidden` the count of grid cells LACKING access. -/
noncomputable def specREffForbidden (mp : ℝ) (fm : FluxMap) : Option ℝ :=
  (cutoffs mp fm).toOption.map fun r =>
    r.rLow + (r.rHigh - r.rLow) * ((nForbiddenCells fm : ℝ) / ((NtotSrc fm : ℝ)))

/-- A concrete three-energy, one-angle flux map whose per-energy access
pattern is accessible / forbidden / accessible (`allow = [1, 0, 1]`), so
`full_access` has two separate runs. -/
def fmC1 : FluxMap :=
  { energies := [1000, 2000, 3000]
    angles := [90]
    position := ⟨65/10, 0, 0⟩
    init_E := fun _ _ => 1000
    final_E := fun _ _ => 1000
    final_x := fun n _ => if n = 1 then ⟨0, 0, 0⟩ else ⟨15, 0, 0⟩
    init_v := fun _ _ => ⟨1, 0, 0⟩ }

/-- A concrete two-energy, two-angle flux map with exactly one cell lacking
access (`allow = [1/2, 1]`): three accessible cells, one forbidden cell. -/
def fmC3 : FluxMap :=
  { energies := [1000, 4500]
    angles := [45, 90]
    position := ⟨65/10, 0, 0⟩
    init_E := fun _ _ => 1000
    final_E := fun _ _ => 1000
    final_x := fun n j => if n = 0 ∧ j = 1 then ⟨0, 0, 0⟩ else ⟨15, 0, 0⟩
    init_v := fun _ _ => ⟨1, 0, 0⟩ }

/-- A concrete flux map in which no cell has geometric access: every final
position is the origin. -/
def fmNoAccess : FluxMap :=
  { energies := [1000]
    angles := [90]
    position := ⟨65/10, 0, 0⟩
    init_E := fun _ _ => 1000
    final_E := fun _ _ => 1000
    final_x := fun _ _ => ⟨0, 0, 0⟩
    init_v := fun _ _ => ⟨1, 0, 0⟩ }

/-- The cutoff record `cutoffs 4 fmC3` produces (spelled out so that concrete
evaluations can name it). -/
noncomputable def rC3res : CutoffResult :=
  { ecLow := (enMev fmC3).getD ((notForbidden fmC3).headD 0) 0
    ecHigh := (enMev fmC3).getD (idxHigh fmC3) 0
    rLow := protonRigidity 4 ((enMev fmC3).getD ((notForbidden fmC3).headD 0) 0 : ℝ)
    rHigh := protonRigidity 4 ((enMev fmC3).getD (idxHigh fmC3) 0 : ℝ)
    rEff := protonRigidity 4 ((enMev fmC3).getD ((notForbidden fmC3).headD 0) 0 : ℝ) +
      (protonRigidity 4 ((enMev fmC3).getD (idxHigh fmC3) 0 : ℝ) -
        protonRigidity 4 ((enMev fmC3).getD ((notForbidden fmC3).headD 0) 0 : ℝ)) *
        ((NforbidSrc fmC3 : ℝ) / (NtotSrc fmC3 : ℝ))
    ecEff := protonEnergyFromRigidity 4
      (protonRigidity 4 ((enMev fmC3).getD ((notForbidden fmC3).headD 0) 0 : ℝ) +
        (protonRigidity 4 ((enMev fmC3).getD (idxHigh fmC3) 0 : ℝ) -
          protonRigidity 4 ((enMev fmC3).getD ((notForbidden fmC3).headD 0) 0 : ℝ)) *
          ((NforbidSrc fmC3 : ℝ) / (NtotSrc fmC3 : ℝ))) }


/-- `ckm = constants.speed_of_light/1e3` of `ptm_tools` (km/s). -/
noncomputable def ckm : ℝ := 299792.458

/-- The `kind='kappa'` branch of `energy_to_flux` (`ptm_tools`): kappa
distribution in energy, converted to differential flux with the boundary
energy's velocity.  The unused bindings `u`, `w` (speeds at `ei`, `ec`) of
the source are dropped; the string dispatch on `kind` is split into one Lean
function per branch (the `maxwell` branch uses the Bessel function `K₂`,
which no claim needs). -/
noncomputable def energy_to_flux_kappa (ei ef ec n mc2 kap : ℝ)
    (energyFlux : Bool) : ℝ :=
  let gamf := 1 + ef / mc2
  let v := ckm * Real.sqrt (gamf * gamf - 1) / gamf
  let Wc := ec * (1 - 1.5 / kap)
  let f0 := n * (mc2 / (ckm * ckm * Wc * 2 * Real.pi * kap)) ^ (1.5 : ℝ) *
    (Real.Gamma (kap + 1) / Real.Gamma (kap - 0.5))
  let f := f0 * (1 + ei / (kap * Wc)) ^ (-(kap + 1) : ℝ)
  let j := 1e5 * ckm * ckm * v * v / mc2 * f
  if energyFlux then j * ef else j

/-- `calculate_electron_flux(ei, ef, x)` of `ptm_tools` with
`x = [k1, E1, n1, k2, E2, n2]`: a two-component kappa mixture at electron
rest mass, using `exp(gammaln(k+1) - gammaln(k-0.5))` for the Gamma ratio
(`scipy.special.gammaln = log ∘ Γ` on positive arguments). -/
noncomputable def calculate_electron_flux (ei ef k1 E1 n1 k2 E2 n2 : ℝ) : ℝ :=
  let mc2 : ℝ := 511
  let W1 := E1 * (1 - 1.5 / k1)
  let W2 := E2 * (1 - 1.5 / k2)
  let kf1 := Real.exp (Real.log (Real.Gamma (k1 + 1)) - Real.log (Real.Gamma (k1 - 0.5)))
  let g1 := n1 * (mc2 / (ckm * ckm * W1 * Real.pi * k1)) ^ (1.5 : ℝ) * kf1
  let f1 := g1 * (1 + ei / (k1 * W1)) ^ (-(k1 + 1) : ℝ)
  let kf2 := Real.exp (Real.log (Real.Gamma (k2 + 1)) - Real.log (Real.Gamma (k2 - 0.5)))
  let g2 := n2 * (mc2 / (ckm * ckm * W2 * Real.pi * k2)) ^ (1.5 : ℝ) * kf2
  let f2 := g2 * (1 + ei / (k2 * W2)) ^ (-(k2 + 1) : ℝ)
  let gamf := 1 + ef / mc2
  let v := ckm * Real.sqrt (gamf * gamf - 1) / gamf
  1e5 * ckm * ckm * v * v / mc2 * (f1 + f2)

/-- `__ckm` of `ptm_postprocessor` (a rounded value, distinct from
`ptm_tools.ckm`). -/
noncomputable def ckmPP : ℝ := 2.998e5

/-- `__csq` of `ptm_postprocessor` (note: not equal to `ckmPP²`). -/
noncomputable def csq : ℝ := 8.988e10

/-- The mutable source-distribution state of a `ptm_postprocessor` instance:
the class constant `__mc2 = 5.11e2`, the parameters set by
`set_source_parameters`, and the lazily-checked `__set_defaults` flag. -/
structure PPState where
  mc2 : ℝ
  ec : ℝ
  n : ℝ
  kappa : ℝ
  set_defaults : Bool

/-- A fresh `ptm_postprocessor()`: `__mc2 = 5.11e2`, `__set_defaults =
True`.  `__ec`, `__n`, `__kappa` do not exist yet in the source (they are
first assigned by `set_source_parameters`); they are initialized arbitrarily
to 0 here, and `calculate_flux` never reads them while `set_defaults` is
still true. -/
noncomputable def PPState.init : PPState :=
  { mc2 := 5.11e2, ec := 0, n := 0, kappa := 0, set_defaults := true }

/-- `set_source_parameters(n_dens, e_char, kappa, mass)`: note
`self.__mc2 *= mass` — the stored rest-mass energy is multiplied in place. -/
noncomputable def set_source_parameters (s : PPState)
    (n_dens e_char kappa mass : ℝ) : PPState :=
  { mc2 := s.mc2 * mass, ec := e_char, n := n_dens, kappa := kappa,
    set_defaults := false }

/-- `calculate_flux(fluxmap)` of `ptm_postprocessor`: the per-cell kappa
differential flux (`ef = final_E`, `ei = init_E`), after lazily applying the
default parameters (`set_source_parameters()` with defaults `n_dens=1.0,
e_char=0.5, kappa=2.5, mass=1.0`) when `__set_defaults` is still set. -/
noncomputable def calculate_flux (s : PPState) (fm : FluxMap) : ℕ → ℕ → ℝ :=
  let s2 := if s.set_defaults then set_source_parameters s 1 0.5 2.5 1 else s
  fun i j =>
    let ef := ((fm.final_E i j : ℚ) : ℝ)
    let ei := ((fm.init_E i j : ℚ) : ℝ)
    let gamf := 1 + ef / s2.mc2
    let v := ckmPP * Real.sqrt (gamf * gamf - 1) / gamf
    let Wc := s2.ec * (1 - 1.5 / s2.kappa)
    let f0 := s2.n * (s2.mc2 / (csq * Wc * 2 * Real.pi * s2.kappa)) ^ (1.5 : ℝ) *
      (Real.Gamma (s2.kappa + 1) / Real.Gamma (s2.kappa - 0.5))
    let f := f0 * (1 + ei / (s2.kappa * Wc)) ^ (-(s2.kappa + 1) : ℝ)
    f * 1e5 * csq * v * v / s2.mc2

/-- Modelled from the spec: the post-processor used by `calculate_omni`
(`pp.set_source(source_type='kaprel', params=dict(density=5e-6,
energy=752.0, kappa=5.0, mass=1847.0))`) is not under `src/`; per spec §4.2
and §4.3 it sets an immutable kappa parameter set, embedded as
`set_source_parameters` on a fresh instance with those parameters. -/
noncomputable def ppSEP : PPState :=
  set_source_parameters PPState.init 5e-6 752.0 5.0 1847.0

/-- Real Euclidean norm of a rational 3-vector (`np.linalg.norm`). -/
noncomputable def normR (a : Vec3) : ℝ :=
  Real.sqrt (((a.x : ℝ)) ^ 2 + ((a.y : ℝ)) ^ 2 + ((a.z : ℝ)) ^ 2)

/-- The per-cell field-of-view angle of `instrFOV` in degrees:
`fovaxis = -position/|position|`, and the angle between `-fovaxis` and the
cell's `init_v` is `rad2deg(arccos(dot(-fovaxis, v/|v|)))`; since
`-fovaxis = position/|position|`, the normalized dot product is
`dot(position, v)/(|position|·|v|)`. -/
noncomputable def instrFOVangle (pos v : Vec3) : ℝ :=
  Real.arccos (((pos.dot v : ℚ) : ℝ) / (normR pos * normR v)) * (180 / Real.pi)

/-- The geometric-access masking loop of `calculate_omni`: a cell keeps its
flux when `norm(final_x) >= 14.99` (`continue`), otherwise it is zeroed. -/
noncomputable def geoMask (fm : FluxMap) (dj : ℕ → ℕ → ℝ) : ℕ → ℕ → ℝ :=
  fun i j => if hasAccess (fm.final_x i j) then dj i j else 0

/-- The field-of-view masking step of `calculate_omni`:
`amask = angles < 90; diff_flux[amask] = 0` — cells whose FOV angle is
strictly below 90° are zeroed, the rest keep their value. -/
noncomputable def fovMask (fm : FluxMap) (dj : ℕ → ℕ → ℝ) : ℕ → ℕ → ℝ :=
  fun i j => if instrFOVangle fm.position (fm.init_v i j) < 90 then 0 else dj i j

/-- The differential-flux grid of `calculate_omni(fluxmap, fov, initialE)`
just before `get_omni_flux`, with the distribution state `s` a parameter:
`final_E` is overwritten by `init_E` when `initialE`; the geometric access
mask is applied only when `not initialE`; the FOV mask when `fov`.
(`pp.map_flux` is not under `src/`; modelled from the spec — §4.3: apply
the distribution model across the grid — as `calculate_flux`, the grid
kappa evaluation that is under `src/`.) -/
noncomputable def preFovFlux (s : PPState) (fm : FluxMap) (initialE : Bool) :
    ℕ → ℕ → ℝ :=
  let fmE := if initialE then { fm with final_E := fm.init_E } else fm
  let dj := calculate_flux s fmE
  if initialE then dj else geoMask fm dj

/-- `calculate_omni`'s masked differential flux with distribution state `s`:
`preFovFlux`, then the FOV mask when `fov` is set. -/
noncomputable def calculateOmniDiffFluxWith (s : PPState) (fm : FluxMap)
    (fov initialE : Bool) : ℕ → ℕ → ℝ :=
  if fov then fovMask fm (preFovFlux s fm initialE) else preFovFlux s fm initialE

/-- The masked differential flux of `calculate_omni` itself, whose source is
fixed to the kaprel parameter set `ppSEP`. -/
noncomputable def calculateOmniDiffFlux (fm : FluxMap) (fov initialE : Bool) :
    ℕ → ℕ → ℝ :=
  calculateOmniDiffFluxWith ppSEP fm fov initialE

/-- A two-dimensional numpy array of floats: shape plus entries. -/
structure Grid2 where
  rows : ℕ
  cols : ℕ
  ent : ℕ → ℕ → ℝ

/-- `diffJ.T`. -/
def Grid2.transpose (g : Grid2) : Grid2 :=
  { rows := g.cols, cols := g.rows, ent := fun i j => g.ent j i }

/-- The integration core of `calculate_omnidirectional_flux` once the flux
grid is oriented with pitch angles along the second axis:
`Q = deg2rad(pav)` (when `angleDegrees`), `coef = 2π·diff(Q)` (doubled when
`symmetry`), `favg = 0.5·(flux[:,1:]+flux[:,:-1])`,
`savg = sin(0.5·(Q[1:]+Q[:-1]))`, and
`omniJ = einsum("i,ji", coef*savg, favg)`. -/
noncomputable def omniIntegrate (pav : List ℝ) (flux : Grid2)
    (angleDegrees symmetry : Bool) : List ℝ :=
  let Q : ℕ → ℝ := fun i =>
    if angleDegrees then pav.getD i 0 * (Real.pi / 180) else pav.getD i 0
  (List.range flux.rows).map fun jr =>
    ∑ i ∈ Finset.range (pav.length - 1),
      ((2 * Real.pi * (Q (i + 1) - Q i)) * (if symmetry then 2 else 1)) *
        Real.sin (0.5 * (Q (i + 1) + Q i)) *
        (0.5 * (flux.ent jr (i + 1) + flux.ent jr i))

/-- `calculate_omnidirectional_flux(pav, diffJ, angleDegrees, symmetry)` of
`ptm_tools`: raises (here: `Except.error`) when `pav.size` matches neither
axis of `diffJ.shape`; otherwise integrates, transposing the grid when the
pitch-angle count matches the first axis but not the second
(`flux = diffJ if pav.size == np.size(diffJ,1) else diffJ.T`). -/
noncomputable def calculate_omnidirectional_flux (pav : List ℝ) (diffJ : Grid2)
    (angleDegrees symmetry : Bool) : Except String (List ℝ) :=
  if ¬(pav.length = diffJ.rows ∨ pav.length = diffJ.cols) then
    .error "Error in calculate_omnidirectional_flux: Dimension mismatch between PAV and DIFFJ"
  else
    .ok (omniIntegrate pav
      (if pav.length = diffJ.cols then diffJ else diffJ.transpose)
      angleDegrees symmetry)

/-- A concrete flux map whose single cell is accessible, has positive
energies, and whose initial velocity points along the observation position
(FOV angle 0°). -/
def fmC2 : FluxMap :=
  { energies := [1000]
    angles := [90]
    position := ⟨65/10, 0, 0⟩
    init_E := fun _ _ => 1000
    final_E := fun _ _ => 1000
    final_x := fun _ _ => ⟨15, 0, 0⟩
    init_v := fun _ _ => ⟨1, 0, 0⟩ }

/-- A concrete flux map whose single cell LACKS geometric access (final
position at the origin) but has positive source energy. -/
def fmC4 : FluxMap :=
  { energies := [1000]
    angles := [90]
    position := ⟨65/10, 0, 0⟩
    init_E := fun _ _ => 1000
    final_E := fun _ _ => 1000
    final_x := fun _ _ => ⟨0, 0, 0⟩
    init_v := fun _ _ => ⟨1, 0, 0⟩ }

/-- The concrete pitch-angle vector of the C7 witness. -/
noncomputable def pavW : List ℝ := [0, 90]

/-- The concrete 1×2 uniform flux grid of the C7 witness. -/
noncomputable def gW : Grid2 := { rows := 1, cols := 2, ent := fun _ _ => 1 }

section ParserLemmas

lemma mem_insertSorted (a b : ℚ) (l : List ℚ) :
    b ∈ insertSorted a l ↔ b = a ∨ b ∈ l := by
  induction l with
  | nil => simp [insertSorted]
  | cons c t ih =>
      simp only [insertSorted]
      by_cases h : a ≤ c
      · simp [h]
      · simp [h, ih]
        tauto

lemma sortQ_cons (b : ℚ) (t : List ℚ) :
    sortQ (b :: t) = insertSorted b (sortQ t) := rfl

lemma mem_sortQ (a : ℚ) (l : List ℚ) : a ∈ sortQ l ↔ a ∈ l := by
  induction l with
  | nil => simp [sortQ]
  | cons b t ih =>
      rw [sortQ_cons, mem_insertSorted, ih, List.mem_cons]

lemma mem_uniqueSorted (a : ℚ) (l : List ℚ) : a ∈ uniqueSorted l ↔ a ∈ l := by
  rw [uniqueSorted, mem_sortQ, List.mem_dedup]

lemma nodup_insertSorted (a : ℚ) (l : List ℚ) (hl : l.Nodup) (ha : a ∉ l) :
    (insertSorted a l).Nodup := by
  induction l with
  | nil => simp [insertSorted]
  | cons c t ih =>
      simp only [insertSorted]
      rcases List.nodup_cons.mp hl with ⟨hct, ht⟩
      have ha' : a ∉ t := fun h => ha (List.mem_cons_of_mem _ h)
      have hac : a ≠ c := fun h => ha (h ▸ List.mem_cons_self _ _)
      by_cases h : a ≤ c
      · rw [if_pos h]
        exact List.nodup_cons.mpr ⟨ha, hl⟩
      · rw [if_neg h]
        refine List.nodup_cons.mpr ⟨?_, ih ht ha'⟩
        rw [mem_insertSorted]
        rintro (rfl | h2)
        · exact hac rfl
        · exact hct h2

lemma nodup_sortQ (l : List ℚ) (hl : l.Nodup) : (sortQ l).Nodup := by
  induction l with
  | nil => simp [sortQ]
  | cons b t ih =>
      rcases List.nodup_cons.mp hl with ⟨hbt, ht⟩
      rw [sortQ_cons]
      exact nodup_insertSorted b _ (ih ht) (by rwa [mem_sortQ])

lemma nodup_uniqueSorted (l : List ℚ) : (uniqueSorted l).Nodup :=
  nodup_sortQ _ l.nodup_dedup

lemma findIdxQ_eq_none (a : ℚ) (l : List ℚ) :
    findIdxQ a l = none ↔ a ∉ l := by
  induction l with
  | nil => simp [findIdxQ]
  | cons b t ih =>
      simp only [findIdxQ, List.mem_cons]
      by_cases h : b = a
      · simp [h]
      · rw [if_neg h]
        cases hf : findIdxQ a t with
        | none =>
            have hat : a ∉ t := ih.mp hf
            simp [hat]
            exact fun hab => h hab.symm
        | some i =>
            have hat : a ∈ t := by
              by_contra hm
              rw [ih.mpr hm] at hf
              simp at hf
            simp [hat]

lemma findIdxQ_getD (a : ℚ) (l : List ℚ) (i : ℕ) (h : findIdxQ a l = some i) :
    i < l.length ∧ l.getD i 0 = a := by
  induction l generalizing i with
  | nil => simp [findIdxQ] at h
  | cons b t ih =>
      simp only [findIdxQ] at h
      by_cases hb : b = a
      · rw [if_pos hb] at h
        cases h
        simpa using hb
      · rw [if_neg hb] at h
        cases hf : findIdxQ a t with
        | none => rw [hf] at h; simp at h
        | some i' =>
            rw [hf] at h
            simp only [Option.map_some', Option.some.injEq] at h
            subst h
            rcases ih i' hf with ⟨hlen, hget⟩
            exact ⟨Nat.succ_lt_succ hlen, by simpa using hget⟩

lemma findIdxQ_isSome (a : ℚ) (l : List ℚ) (h : a ∈ l) :
    ∃ i, findIdxQ a l = some i := by
  cases hf : findIdxQ a l with
  | none => exact absurd h ((findIdxQ_eq_none a l).mp hf)
  | some i => exact ⟨i, rfl⟩

end ParserLemmas

/-- **C9.** For every concatenated input table, each row of the raw data has
its energy and pitch value present in the discovered grid vectors (no hole),
those vectors are duplicate-free (so distinct (energy, pitch) combinations
map to distinct cells — no duplicate), and the parser's assembly step writes
the row's `init_E`, `final_E`, `final_x`, `init_v` into exactly the one cell
whose grid energy and grid pitch equal the row's values, leaving every other
cell untouched; a row whose energy or pitch matches no grid value leaves the
grids entirely unchanged — silently dropped, not a failure. -/
theorem parse_map_file_cell_assignment (rows : List Row) (r : Row) (g : GridState) :
    ((envec rows).Nodup ∧ (pavec rows).Nodup) ∧
    (r ∈ rows → r.e ∈ envec rows ∧ r.pa ∈ pavec rows ∧
      ∃ i j, findIdxQ r.e (envec rows) = some i ∧ findIdxQ r.pa (pavec rows) = some j) ∧
    (∀ i j, findIdxQ r.e (envec rows) = some i → findIdxQ r.pa (pavec rows) = some j →
      (i < (envec rows).length ∧ (envec rows).getD i 0 = r.e) ∧
      (j < (pavec rows).length ∧ (pavec rows).getD j 0 = r.pa) ∧
      (stepRow (envec rows) (pavec rows) g r).einit i j = r.e ∧
      (stepRow (envec rows) (pavec rows) g r).efinal i j = r.ef ∧
      (stepRow (envec rows) (pavec rows) g r).xfinal i j = ⟨r.x, r.y, r.z⟩ ∧
      (stepRow (envec rows) (pavec rows) g r).vinit i j = ⟨r.vx, r.vy, r.vz⟩ ∧
      (∀ i' j', ¬(i' = i ∧ j' = j) →
        (stepRow (envec rows) (pavec rows) g r).einit i' j' = g.einit i' j' ∧
        (stepRow (envec rows) (pavec rows) g r).efinal i' j' = g.efinal i' j' ∧
        (stepRow (envec rows) (pavec rows) g r).xfinal i' j' = g.xfinal i' j' ∧
        (stepRow (envec rows) (pavec rows) g r).vinit i' j' = g.vinit i' j')) ∧
    ((findIdxQ r.e (envec rows) = none ∨ findIdxQ r.pa (pavec rows) = none) →
      stepRow (envec rows) (pavec rows) g r = g) := by
  refine ⟨⟨nodup_uniqueSorted _, nodup_uniqueSorted _⟩, ?_, ?_, ?_⟩
  · intro hmem
    have he : r.e ∈ envec rows :=
      (mem_uniqueSorted _ _).mpr (List.mem_map_of_mem Row.e hmem)
    have hpa : r.pa ∈ pavec rows :=
      (mem_uniqueSorted _ _).mpr (List.mem_map_of_mem Row.pa hmem)
    obtain ⟨i, hi⟩ := findIdxQ_isSome _ _ he
    obtain ⟨j, hj⟩ := findIdxQ_isSome _ _ hpa
    exact ⟨he, hpa, i, j, hi, hj⟩
  · intro i j hi hj
    refine ⟨findIdxQ_getD _ _ _ hi |>.imp id id, findIdxQ_getD _ _ _ hj |>.imp id id,
      ?_, ?_, ?_, ?_, ?_⟩
    · simp [stepRow, hi, hj, setCell]
    · simp [stepRow, hi, hj, setCell]
    · simp [stepRow, hi, hj, setCellV]
    · simp [stepRow, hi, hj, setCellV]
    · intro i' j' hne
      refine ⟨?_, ?_, ?_, ?_⟩ <;> simp [stepRow, hi, hj, setCell, setCellV, hne]
  · rintro (hn | hn)
    · cases hf : findIdxQ r.pa (pavec rows) <;> simp [stepRow, hn, hf]
    · cases hf : findIdxQ r.e (envec rows) <;> simp [stepRow, hn, hf]

section RunLemmas

lemma prevAt_cons (prev b : Bool) (rest : List Bool) (d : ℕ) :
    prevAt prev (b :: rest) (d + 1) = prevAt b rest d := by
  cases d <;> rfl

lemma pairUp_edgesAux (l : List Bool) : ∀ i : ℕ,
    ((pairUp (edgesAux false i l)).map Prod.fst = risingAux false i l) ∧
    (∀ r : ℕ, (pairUp (r :: edgesAux true i l)).map Prod.fst =
      r :: risingAux true i l) := by
  induction l with
  | nil =>
      intro i
      constructor
      · simp [edgesAux, pairUp, risingAux]
      · intro r
        simp [edgesAux, pairUp, risingAux]
  | cons b rest ih =>
      intro i
      cases b
      · constructor
        · simpa [edgesAux, risingAux] using (ih (i + 1)).1
        · intro r
          simpa [edgesAux, risingAux, pairUp] using (ih (i + 1)).1
      · constructor
        · simpa [edgesAux, risingAux] using (ih (i + 1)).2 i
        · intro r
          simpa [edgesAux, risingAux] using (ih (i + 1)).2 r

lemma findRuns_map_fst (l : List Bool) :
    (findRuns l).map Prod.fst = runStarts l :=
  (pairUp_edgesAux l 0).1

lemma mem_risingAux (l : List Bool) : ∀ (prev : Bool) (i k : ℕ),
    k ∈ risingAux prev i l ↔
      ∃ d, d < l.length ∧ k = i + d ∧ l.getD d false = true ∧
        prevAt prev l d = false := by
  induction l with
  | nil => simp [risingAux]
  | cons b rest ih =>
      intro prev i k
      constructor
      · intro hk
        by_cases hc : (b = true ∧ ¬prev = true)
        · rw [risingAux, if_pos hc] at hk
          rcases List.mem_cons.mp hk with rfl | hk'
          · exact ⟨0, Nat.succ_pos _, by omega, hc.1, by
              simpa [prevAt] using Bool.not_eq_true prev ▸ hc.2⟩
          · rcases (ih b (i + 1) k).mp hk' with ⟨d, hd, rfl, hval, hprev⟩
            exact ⟨d + 1, by simpa using hd, by omega, by simpa using hval,
              by rw [prevAt_cons]; exact hprev⟩
        · rw [risingAux, if_neg hc] at hk
          rcases (ih b (i + 1) k).mp hk with ⟨d, hd, rfl, hval, hprev⟩
          exact ⟨d + 1, by simpa using hd, by omega, by simpa using hval,
            by rw [prevAt_cons]; exact hprev⟩
      · rintro ⟨d, hd, rfl, hval, hprev⟩
        cases d with
        | zero =>
            have hb : b = true := by simpa using hval
            have hp : prev = false := by simpa [prevAt] using hprev
            have hc : (b = true ∧ ¬prev = true) := by simp [hb, hp]
            rw [risingAux, if_pos hc]
            simp
        | succ e =>
            have hmem : i + 1 + e ∈ risingAux b (i + 1) rest :=
              (ih b (i + 1) (i + 1 + e)).mpr
                ⟨e, by simpa using hd, rfl, by simpa using hval,
                  by rw [← prevAt_cons prev b rest e]; exact hprev⟩
            have : i + (e + 1) = i + 1 + e := by omega
            rw [this, risingAux]
            by_cases hc : (b = true ∧ ¬prev = true)
            · rw [if_pos hc]
              exact List.mem_cons_of_mem _ hmem
            · rw [if_neg hc]
              exact hmem

lemma mem_runStarts (l : List Bool) (k : ℕ) :
    k ∈ runStarts l ↔
      k < l.length ∧ l.getD k false = true ∧
        (k = 0 ∨ l.getD (k - 1) false = false) := by
  rw [runStarts, mem_risingAux]
  constructor
  · rintro ⟨d, hd, rfl, hval, hprev⟩
    refine ⟨by simpa using hd, by simpa using hval, ?_⟩
    cases d with
    | zero => exact Or.inl rfl
    | succ e => exact Or.inr (by simpa [prevAt] using hprev)
  · rintro ⟨hk, hval, hz⟩
    refine ⟨k, hk, by omega, hval, ?_⟩
    cases k with
    | zero => rfl
    | succ e =>
        rcases hz with h0 | hp
        · exact absurd h0 (Nat.succ_ne_zero e)
        · simpa [prevAt] using hp

lemma risingAux_ge (l : List Bool) : ∀ (prev : Bool) (i k : ℕ),
    k ∈ risingAux prev i l → i ≤ k := by
  intro prev i k hk
  rcases (mem_risingAux l prev i k).mp hk with ⟨d, -, rfl, -, -⟩
  omega

lemma risingAux_pairwise (l : List Bool) : ∀ (prev : Bool) (i : ℕ),
    (risingAux prev i l).Pairwise (· < ·) := by
  induction l with
  | nil => intro prev i; simp [risingAux]
  | cons b rest ih =>
      intro prev i
      rw [risingAux]
      by_cases hc : (b = true ∧ ¬prev = true)
      · rw [if_pos hc]
        refine List.pairwise_cons.mpr ⟨?_, ih b (i + 1)⟩
        intro k hk
        have := risingAux_ge rest b (i + 1) k hk
        omega
      · rw [if_neg hc]
        exact ih b (i + 1)

lemma runStarts_pairwise (l : List Bool) : (runStarts l).Pairwise (· < ·) :=
  risingAux_pairwise l false 0

end RunLemmas

section CutoffLemmas

lemma getD_map_of_lt {α β : Type} (f : α → β) (l : List α) (i : ℕ)
    (da : α) (db : β) (h : i < l.length) :
    (l.map f).getD i db = f (l.getD i da) := by
  induction l generalizing i with
  | nil => simp at h
  | cons a t ih =>
      cases i with
      | zero => rfl
      | succ n => simpa using ih n (by simpa using h)

lemma getD_range (k n : ℕ) (h : n < k) : (List.range k).getD n 0 = n := by
  rw [List.getD_eq_getElem?_getD, List.getElem?_range h]
  rfl

lemma allowFrac_getD (fm : FluxMap) (n : ℕ) (h : n < fm.energies.length) :
    (allowFrac fm).getD n 0 =
      (((List.range fm.angles.length).countP
        fun j => hasAccess (fm.final_x n j) : ℕ) : ℚ) / (fm.angles.length : ℚ) := by
  rw [allowFrac, getD_map_of_lt _ _ n 0 0 (by simpa using h), getD_range _ _ h]

lemma allowFrac_length (fm : FluxMap) :
    (allowFrac fm).length = fm.energies.length := by
  simp [allowFrac]

lemma fullAccess_length (fm : FluxMap) :
    (fullAccess fm).length = (allowFrac fm).length := by
  simp [fullAccess]

lemma fullAccess_getD (fm : FluxMap) (i : ℕ) (h : i < (allowFrac fm).length) :
    (fullAccess fm).getD i false =
      decide ((41 / 50 : ℚ) < (allowFrac fm).getD i 0) :=
  getD_map_of_lt _ _ i 0 false h

lemma cutoffs_ok_spec (mp : ℝ) (fm : FluxMap) (r : CutoffResult)
    (h : cutoffs mp fm = .ok r) :
    notForbidden fm ≠ [] ∧
    r.ecLow = (enMev fm).getD ((notForbidden fm).headD 0) 0 ∧
    r.ecHigh = (enMev fm).getD (idxHigh fm) 0 ∧
    r.rLow = protonRigidity mp (r.ecLow : ℝ) ∧
    r.rHigh = protonRigidity mp (r.ecHigh : ℝ) ∧
    r.rEff = r.rLow + (r.rHigh - r.rLow) * ((NforbidSrc fm : ℝ) / (NtotSrc fm : ℝ)) ∧
    r.ecEff = protonEnergyFromRigidity mp r.rEff := by
  by_cases hne : notForbidden fm = []
  · rw [cutoffs, if_pos hne] at h
    simp at h
  · rw [cutoffs, if_neg hne] at h
    injection h with h'
    subst h'
    exact ⟨hne, rfl, rfl, rfl, rfl, rfl, rfl⟩

end CutoffLemmas

/-- **C10.** When every (energy, pitch) cell of the flux map lacks geometric
access — so the access fraction is zero at every energy — `not_forbidden` is
empty and `idx_low = not_forbidden[0]` raises `IndexError` instead of
returning a cutoff record: a nonempty set of accessible cells is an
undocumented precondition of `cutoffs`. -/
theorem cutoffs_no_access_index_error (mp : ℝ) (fm : FluxMap)
    (h : ∀ n j, n < fm.energies.length → j < fm.angles.length →
      hasAccess (fm.final_x n j) = false) :
    cutoffs mp fm =
      .error "IndexError: index 0 is out of bounds for axis 0 with size 0" := by
  have hnf : notForbidden fm = [] := by
    rw [notForbidden, List.filter_eq_nil_iff]
    intro n hn
    have hn' : n < fm.energies.length := by
      have := List.mem_range.mp hn
      rwa [allowFrac_length] at this
    have hcount : ((List.range fm.angles.length).countP
        fun j => hasAccess (fm.final_x n j)) = 0 := by
      rw [List.countP_eq_zero]
      intro j hj
      simp [h n j hn' (List.mem_range.mp hj)]
    have hget : (allowFrac fm).getD n 0 = 0 := by
      rw [allowFrac_getD fm n hn', hcount]
      simp
    simp only [decide_eq_true_eq]
    exact not_not_intro hget
  rw [cutoffs, if_pos hnf]

/-- Witness for C10: a concrete flux map whose final positions are all at the
origin makes `cutoffs` return the `IndexError` value. -/
theorem cutoffs_no_access_index_error_witness :
    cutoffs 938 fmNoAccess =
      .error "IndexError: index 0 is out of bounds for axis 0 with size 0" :=
  cutoffs_no_access_index_error 938 fmNoAccess (fun n j _ _ => by
    show hasAccess ⟨0, 0, 0⟩ = false
    rw [hasAccess, decide_eq_false_iff_not]
    rw [Vec3.normSq]
    norm_num)

/-- **C1 (amended).** `ec_high` is the energy at the start of the LAST
contiguous run of energies whose access fraction exceeds 0.82 (`find_runs`
returns exactly the maximal runs, in ascending order of starts, and
`cutoffs` takes `find_runs(...)[-1][0]`); if no energy's access fraction
exceeds 0.82, `ec_high` falls back to the highest energy in the grid; and
for a non-decreasing access-fraction sequence first exceeding 0.82 at index
`k` (where first and last run coincide), `ec_high = energies[k]`. -/
theorem cutoffs_ec_high_policy (mp : ℝ) (fm : FluxMap) :
    (∀ k, k ∈ (findRuns (fullAccess fm)).map Prod.fst ↔
        (k < (fullAccess fm).length ∧ (fullAccess fm).getD k false = true ∧
          (k = 0 ∨ (fullAccess fm).getD (k - 1) false = false))) ∧
    ((findRuns (fullAccess fm)).map Prod.fst).Pairwise (· < ·) ∧
    (∀ r, cutoffs mp fm = .ok r →
      ((findRuns (fullAccess fm) = [] →
        r.ecHigh = (enMev fm).getD ((enMev fm).length - 1) 0) ∧
      (∀ p, (findRuns (fullAccess fm)).getLast? = some p →
        r.ecHigh = (enMev fm).getD p.1 0))) ∧
    (∀ k, (∀ i j, i ≤ j → j < (allowFrac fm).length →
          (allowFrac fm).getD i 0 ≤ (allowFrac fm).getD j 0) →
      k < (allowFrac fm).length →
      (41 / 50 : ℚ) < (allowFrac fm).getD k 0 →
      (∀ i, i < k → (allowFrac fm).getD i 0 ≤ 41 / 50) →
      ∀ r, cutoffs mp fm = .ok r → r.ecHigh = (enMev fm).getD k 0) := by
  refine ⟨?_, ?_, ?_, ?_⟩
  · intro k
    rw [findRuns_map_fst]
    exact mem_runStarts _ _
  · rw [findRuns_map_fst]
    exact runStarts_pairwise _
  · intro r hr
    have hhigh := (cutoffs_ok_spec mp fm r hr).2.2.1
    constructor
    · intro h0
      rw [hhigh]
      simp [idxHigh, h0]
    · intro p hp
      rw [hhigh]
      simp [idxHigh, hp]
  · intro k hmono hk hcross hbelow r hr
    have hfalen : (fullAccess fm).length = (allowFrac fm).length := fullAccess_length fm
    have hfaiff : ∀ i, i < (allowFrac fm).length →
        ((fullAccess fm).getD i false = true ↔
          (41 / 50 : ℚ) < (allowFrac fm).getD i 0) := by
      intro i hi
      rw [fullAccess_getD fm i hi]
      exact decide_eq_true_iff
    have hmem : k ∈ runStarts (fullAccess fm) := by
      rw [mem_runStarts]
      refine ⟨by omega, (hfaiff k hk).mpr hcross, ?_⟩
      cases k with
      | zero => exact Or.inl rfl
      | succ e =>
          right
          have he : e < (allowFrac fm).length := by omega
          have he1 : e + 1 - 1 = e := rfl
          rw [he1, fullAccess_getD fm e he]
          exact decide_eq_false (not_lt.mpr (hbelow e (Nat.lt_succ_self e)))
    have huniq : ∀ k', k' ∈ runStarts (fullAccess fm) → k' = k := by
      intro k' hk'
      obtain ⟨hk'len, hk'val, hk'z⟩ := (mem_runStarts _ _).mp hk'
      rw [hfalen] at hk'len
      have h1 : (41 / 50 : ℚ) < (allowFrac fm).getD k' 0 :=
        (hfaiff k' hk'len).mp hk'val
      have hge : k ≤ k' := by
        by_contra hlt
        push_neg at hlt
        exact absurd h1 (not_lt.mpr (hbelow k' hlt))
      rcases Nat.eq_or_lt_of_le hge with heq | hlt
      · omega
      · exfalso
        rcases hk'z with h0 | hp
        · omega
        · have hlt' : k' - 1 < (allowFrac fm).length := by omega
          have h2 : (41 / 50 : ℚ) < (allowFrac fm).getD (k' - 1) 0 :=
            lt_of_lt_of_le hcross (hmono k (k' - 1) (by omega) hlt')
          have h3 : (fullAccess fm).getD (k' - 1) false = true :=
            (hfaiff _ hlt').mpr h2
          rw [hp] at h3
          exact Bool.false_ne_true h3
    have hmapfst := findRuns_map_fst (fullAccess fm)
    have hne2 : findRuns (fullAccess fm) ≠ [] := by
      intro h0
      rw [h0] at hmapfst
      rw [← hmapfst] at hmem
      simp at hmem
    have hlastmem : (findRuns (fullAccess fm)).getLast hne2 ∈ findRuns (fullAccess fm) :=
      List.getLast_mem hne2
    have hfst : ((findRuns (fullAccess fm)).getLast hne2).1 ∈ runStarts (fullAccess fm) := by
      rw [← hmapfst]
      exact List.mem_map_of_mem _ hlastmem
    have hk1 := huniq _ hfst
    have hlast : (findRuns (fullAccess fm)).getLast? =
        some ((findRuns (fullAccess fm)).getLast hne2) :=
      List.getLast?_eq_getLast _ hne2
    have hhigh := (cutoffs_ok_spec mp fm r hr).2.2.1
    rw [hhigh]
    simp [idxHigh, hlast, hk1]

/-- Counterexample to **C1** as stated: for the flux map `fmC1` the access
pattern has two full-access runs; `cutoffs` returns the start of the LAST
run (`ec_high = 3` MeV), not the start of the first run (1 MeV) as the
claim asserts. -/
theorem cutoffs_ec_high_first_run_counterexample :
    (cutoffs 938 fmC1).toOption.map CutoffResult.ecHigh = some 3 ∧
    specEcHighFirstRun fmC1 = some 1 ∧ (3 : ℚ) ≠ 1 := by
  have hnf : notForbidden fmC1 = [0, 2] := by
    norm_num [notForbidden, allowFrac, fmC1, hasAccess, Vec3.normSq, List.range_succ]
  have hfa : fullAccess fmC1 = [true, false, true] := by
    norm_num [fullAccess, allowFrac, fmC1, hasAccess, Vec3.normSq, List.range_succ]
  have hruns : findRuns [true, false, true] = [(0, 1), (2, 3)] := by decide
  have hidx : idxHigh fmC1 = 2 := by
    simp [idxHigh, hfa, hruns]
  have hen : enMev fmC1 = [1, 2, 3] := by
    norm_num [enMev, fmC1]
  refine ⟨?_, ?_, by norm_num⟩
  · rw [cutoffs, if_neg (by rw [hnf]; simp)]
    simp [Except.toOption, hidx, hen]
  · rw [specEcHighFirstRun]
    rw [hfa, hruns, hen]
    rfl

section NcountLemmas

lemma NforbidSrc_eq_access (fm : FluxMap) (hang : fm.angles.length ≠ 0) :
    NforbidSrc fm = (nAccessCells fm : ℚ) := by
  have hL : ((fm.angles.length : ℚ)) ≠ 0 := Nat.cast_ne_zero.mpr hang
  rw [NforbidSrc, allowFrac, List.map_map, nAccessCells, Nat.cast_list_sum,
    List.map_map]
  have hfun : ((fun x => x * (fm.angles.length : ℚ)) ∘ fun n =>
        ((List.countP (fun j => hasAccess (fm.final_x n j))
          (List.range fm.angles.length) : ℕ) : ℚ) / (fm.angles.length : ℚ)) =
      (Nat.cast ∘ fun n => List.countP (fun j => hasAccess (fm.final_x n j))
        (List.range fm.angles.length)) := by
    funext n
    simp only [Function.comp_apply]
    exact div_mul_cancel₀ _ hL
  rw [hfun]

lemma NtotSrc_eq (fm : FluxMap) :
    NtotSrc fm = ((fm.energies.length * fm.angles.length : ℕ) : ℚ) := by
  rw [NtotSrc, allowFrac_length]
  push_cast
  ring

end NcountLemmas

/-- **C3 (amended).** The effective rigidity returned by `cutoffs` mixes the
low and high rigidities by the fraction of cells WITH geometric access (the
source's `Nforbid = np.sum(allow*len(angles))` totals the accessible-cell
counts, `allow` being the access fraction), not by the fraction of cells
lacking access: `rigidity_effective = rigidity_low + (rigidity_high −
rigidity_low) · N_access/N_total`; `ec_effective` is obtained from
`rigidity_effective` by the inverse rigidity-to-energy mapping. -/
theorem cutoffs_r_eff_access_formula (mp : ℝ) (fm : FluxMap)
    (hang : fm.angles.length ≠ 0) (r : CutoffResult)
    (hr : cutoffs mp fm = .ok r) :
    r.rEff = r.rLow + (r.rHigh - r.rLow) *
      ((nAccessCells fm : ℝ) / ((fm.energies.length * fm.angles.length : ℕ) : ℝ)) ∧
    r.ecEff = protonEnergyFromRigidity mp r.rEff := by
  obtain ⟨-, -, -, -, -, hre, hee⟩ := cutoffs_ok_spec mp fm r hr
  refine ⟨?_, hee⟩
  rw [hre, NforbidSrc_eq_access fm hang, NtotSrc_eq fm]
  push_cast
  ring

lemma notForbidden_fmC3 : notForbidden fmC3 = [0, 1] := by
  norm_num [notForbidden, allowFrac, fmC3, hasAccess, Vec3.normSq, List.range_succ]

lemma cutoffsC3_ok : cutoffs 4 fmC3 = .ok rC3res := by
  rw [cutoffs, if_neg (by rw [notForbidden_fmC3]; simp)]
  rfl

lemma enMev_low_fmC3 : (enMev fmC3).getD ((notForbidden fmC3).headD 0) 0 = 1 := by
  rw [notForbidden_fmC3]
  norm_num [enMev, fmC3]

lemma enMev_high_fmC3 : (enMev fmC3).getD (idxHigh fmC3) 0 = 9 / 2 := by
  have hfa : fullAccess fmC3 = [false, true] := by
    norm_num [fullAccess, allowFrac, fmC3, hasAccess, Vec3.normSq, List.range_succ]
  have hruns : findRuns [false, true] = [(1, 2)] := by decide
  have hidx : idxHigh fmC3 = 1 := by
    simp [idxHigh, hfa, hruns]
  rw [hidx]
  norm_num [enMev, fmC3]

lemma rigidity_one : protonRigidity 4 ((1 : ℚ) : ℝ) = 3 := by
  rw [protonRigidity]
  push_cast
  rw [show (1 : ℝ) * (1 + 2 * 4) = 3 ^ 2 by norm_num]
  exact Real.sqrt_sq (by norm_num)

lemma rigidity_ninehalf : protonRigidity 4 ((9 / 2 : ℚ) : ℝ) = 15 / 2 := by
  rw [protonRigidity]
  push_cast
  rw [show (9 / 2 : ℝ) * (9 / 2 + 2 * 4) = (15 / 2) ^ 2 by norm_num]
  exact Real.sqrt_sq (by norm_num)

/-- Witness for the amended C3 theorem at the concrete map `fmC3`. -/
theorem cutoffs_r_eff_access_formula_witness :
    rC3res.rEff = rC3res.rLow + (rC3res.rHigh - rC3res.rLow) *
      ((nAccessCells fmC3 : ℝ) /
        ((fmC3.energies.length * fmC3.angles.length : ℕ) : ℝ)) ∧
    rC3res.ecEff = protonEnergyFromRigidity 4 rC3res.rEff :=
  cutoffs_r_eff_access_formula 4 fmC3 (by norm_num [fmC3]) rC3res cutoffsC3_ok

/-- Counterexample to **C3** as stated: for `fmC3` (three accessible cells,
one forbidden cell, rigidities 3 GV and 7.5 GV) the code returns
`r_eff = 3 + 4.5·(3/4) = 6.375`, whereas the claimed formula with
`N_forbidden` = number of cells lacking access gives `3 + 4.5·(1/4) =
4.125`. -/
theorem cutoffs_r_eff_forbidden_counterexample :
    (cutoffs 4 fmC3).toOption.map CutoffResult.rEff = some (51 / 8) ∧
    specREffForbidden 4 fmC3 = some (33 / 8) ∧ ((51 / 8 : ℝ) ≠ 33 / 8) := by
  have hnfs : NforbidSrc fmC3 = 3 := by
    norm_num [NforbidSrc, allowFrac, fmC3, hasAccess, Vec3.normSq, List.range_succ]
  have hnt : NtotSrc fmC3 = 4 := by
    norm_num [NtotSrc, allowFrac, fmC3]
  have hfc : nForbiddenCells fmC3 = 1 := by
    norm_num [nForbiddenCells, fmC3, hasAccess, Vec3.normSq, List.range_succ]
  refine ⟨?_, ?_, by norm_num⟩
  · rw [cutoffsC3_ok]
    show some rC3res.rEff = some (51 / 8)
    rw [rC3res]
    simp only [enMev_low_fmC3, enMev_high_fmC3, rigidity_one, rigidity_ninehalf,
      hnfs, hnt]
    norm_num
  · rw [specREffForbidden, cutoffsC3_ok]
    show some (rC3res.rLow + (rC3res.rHigh - rC3res.rLow) *
      ((nForbiddenCells fmC3 : ℝ) / ((NtotSrc fmC3 : ℝ)))) = some (33 / 8)
    rw [rC3res]
    simp only [enMev_low_fmC3, enMev_high_fmC3, rigidity_one, rigidity_ninehalf,
      hfc, hnt]
    norm_num

/-- **C6.** Each `set_source_parameters` call multiplies the stored
rest-mass field in place (`self.__mc2 *= mass`), so after `n` calls with
mass `m` on the same post-processor instance the stored rest-mass energy —
the value `calculate_flux` reads once the defaults flag is cleared — is
`511·mⁿ`; and after at least one call the defaults flag is cleared, so
`calculate_flux` applies no further parameter reset. -/
theorem set_source_parameters_compounds (nd ec kap m : ℝ) (n : ℕ) :
    (((fun s => set_source_parameters s nd ec kap m)^[n] PPState.init).mc2 =
      511 * m ^ n) ∧
    (1 ≤ n →
      ((fun s => set_source_parameters s nd ec kap m)^[n] PPState.init).set_defaults
        = false) := by
  constructor
  · induction n with
    | zero =>
        simp [PPState.init]
        norm_num
    | succ k ih =>
        rw [Function.iterate_succ_apply']
        show ((fun s => set_source_parameters s nd ec kap m)^[k] PPState.init).mc2 * m
          = 511 * m ^ (k + 1)
        rw [ih]
        ring
  · intro hn
    obtain ⟨k, rfl⟩ := Nat.exists_eq_add_of_le hn
    rw [Nat.add_comm, Function.iterate_succ_apply']
    rfl

/-- **C7.** For every pitch-angle vector of length at least 2 and every flux
grid one of whose axes matches it, the pitch-angle integration with
`symmetry=True` is exactly twice, elementwise over energies, its result with
`symmetry=False` (the symmetry flag only doubles the integration weights
`coef`, in which the reduction is linear). -/
theorem omni_symmetry_doubles (pav : List ℝ) (g : Grid2) (deg : Bool)
    (hlen : 2 ≤ pav.length) (hconf : pav.length = g.rows ∨ pav.length = g.cols) :
    calculate_omnidirectional_flux pav g deg false =
      .ok (omniIntegrate pav (if pav.length = g.cols then g else g.transpose)
        deg false) ∧
    calculate_omnidirectional_flux pav g deg true =
      .ok ((omniIntegrate pav (if pav.length = g.cols then g else g.transpose)
        deg false).map fun x => 2 * x) := by
  constructor
  · rw [calculate_omnidirectional_flux, if_neg (not_not_intro hconf)]
  · rw [calculate_omnidirectional_flux, if_neg (not_not_intro hconf)]
    congr 1
    rw [omniIntegrate, omniIntegrate, List.map_map]
    apply List.map_congr_left
    intro jr hjr
    simp only [Function.comp_apply]
    rw [Finset.mul_sum]
    apply Finset.sum_congr rfl
    intro i hi
    simp only [Bool.false_eq_true, if_false, if_true]
    ring

/-- Witness for C7 at the concrete input `pavW = [0°, 90°]`, `gW` a 1×2
uniform grid. -/
theorem omni_symmetry_doubles_witness :
    calculate_omnidirectional_flux pavW gW false false =
      .ok (omniIntegrate pavW (if pavW.length = gW.cols then gW else gW.transpose)
        false false) ∧
    calculate_omnidirectional_flux pavW gW false true =
      .ok ((omniIntegrate pavW (if pavW.length = gW.cols then gW else gW.transpose)
        false false).map fun x => 2 * x) :=
  omni_symmetry_doubles pavW gW false (by norm_num [pavW])
    (Or.inr (by norm_num [pavW, gW]))

/-- **C8.** The pitch-angle integration fails with the dimension-mismatch
error exactly when the pitch-angle count matches neither axis of the flux
grid; when it matches the second axis (the integration axis) the grid is
integrated as is, and when it matches only the first axis the grid is
transposed first. -/
theorem omni_dimension_check (pav : List ℝ) (g : Grid2) (deg sym : Bool) :
    ((∃ e, calculate_omnidirectional_flux pav g deg sym = .error e) ↔
      (pav.length ≠ g.rows ∧ pav.length ≠ g.cols)) ∧
    (pav.length = g.cols →
      calculate_omnidirectional_flux pav g deg sym =
        .ok (omniIntegrate pav g deg sym)) ∧
    (pav.length = g.rows → pav.length ≠ g.cols →
      calculate_omnidirectional_flux pav g deg sym =
        .ok (omniIntegrate pav g.transpose deg sym)) := by
  refine ⟨⟨?_, ?_⟩, ?_, ?_⟩
  · rintro ⟨e, he⟩
    by_contra hc
    have hconf : pav.length = g.rows ∨ pav.length = g.cols := by tauto
    rw [calculate_omnidirectional_flux, if_neg (not_not_intro hconf)] at he
    simp at he
  · rintro ⟨hr, hc⟩
    rw [calculate_omnidirectional_flux, if_pos (by tauto)]
    exact ⟨_, rfl⟩
  · intro hc
    rw [calculate_omnidirectional_flux, if_neg (not_not_intro (Or.inr hc)),
      if_pos hc]
  · intro hr hc
    rw [calculate_omnidirectional_flux, if_neg (not_not_intro (Or.inl hr)),
      if_neg hc]

section ElectronFluxLemmas

lemma ckm_pos : (0 : ℝ) < ckm := by rw [ckm]; norm_num

lemma gamma_ratio_exp (k : ℝ) (hk : (0.5 : ℝ) < k) :
    Real.exp (Real.log (Real.Gamma (k + 1)) - Real.log (Real.Gamma (k - 0.5))) =
      Real.Gamma (k + 1) / Real.Gamma (k - 0.5) := by
  have h1 : 0 < Real.Gamma (k + 1) := Real.Gamma_pos_of_pos (by linarith)
  have h2 : 0 < Real.Gamma (k - 0.5) := Real.Gamma_pos_of_pos (by linarith)
  rw [Real.exp_sub, Real.exp_log h1, Real.exp_log h2]

lemma w_pos (e k : ℝ) (he : 0 < e) (hk : (1.5 : ℝ) < k) :
    0 < e * (1 - 1.5 / k) := by
  have hk0 : (0 : ℝ) < k := by linarith
  exact mul_pos he (by rw [sub_pos]; exact (div_lt_one hk0).mpr hk)

lemma kappa_base_split (e k : ℝ) (he : 0 < e) (hk : (1.5 : ℝ) < k) :
    ((511 : ℝ) / (ckm * ckm * (e * (1 - 1.5 / k)) * Real.pi * k)) ^ (1.5 : ℝ) =
      2 ^ (1.5 : ℝ) *
        ((511 : ℝ) / (ckm * ckm * (e * (1 - 1.5 / k)) * 2 * Real.pi * k)) ^ (1.5 : ℝ) := by
  have hckm : ckm ≠ 0 := ne_of_gt ckm_pos
  have hW : (0 : ℝ) < e * (1 - 1.5 / k) := w_pos e k he hk
  have hk0 : (0 : ℝ) < k := by linarith
  have hden : 0 < ckm * ckm * (e * (1 - 1.5 / k)) * Real.pi * k :=
    mul_pos (mul_pos (mul_pos (mul_pos ckm_pos ckm_pos) hW) Real.pi_pos) hk0
  have hbase : (511 : ℝ) / (ckm * ckm * (e * (1 - 1.5 / k)) * Real.pi * k) =
      2 * ((511 : ℝ) / (ckm * ckm * (e * (1 - 1.5 / k)) * 2 * Real.pi * k)) := by
    rw [show ckm * ckm * (e * (1 - 1.5 / k)) * 2 * Real.pi * k =
      2 * (ckm * ckm * (e * (1 - 1.5 / k)) * Real.pi * k) by ring]
    rw [mul_div_assoc']
    exact (mul_div_mul_left 511 _ two_ne_zero).symm
  have hnn : (0 : ℝ) ≤ 511 / (ckm * ckm * (e * (1 - 1.5 / k)) * 2 * Real.pi * k) := by
    apply le_of_lt
    apply div_pos (by norm_num)
    rw [show ckm * ckm * (e * (1 - 1.5 / k)) * 2 * Real.pi * k =
      2 * (ckm * ckm * (e * (1 - 1.5 / k)) * Real.pi * k) by ring]
    exact mul_pos two_pos hden
  rw [hbase, Real.mul_rpow (by norm_num) hnn]

end ElectronFluxLemmas

lemma electron_flux_scale (ei ef k1 E1 n1 k2 E2 n2 : ℝ)
    (hk1 : (1.5 : ℝ) < k1) (hk2 : (1.5 : ℝ) < k2) (hE1 : 0 < E1) (hE2 : 0 < E2) :
    calculate_electron_flux ei ef k1 E1 n1 k2 E2 n2 =
      2 ^ (1.5 : ℝ) *
        (energy_to_flux_kappa ei ef E1 n1 511 k1 false +
          energy_to_flux_kappa ei ef E2 n2 511 k2 false) := by
  simp only [calculate_electron_flux, energy_to_flux_kappa, Bool.false_eq_true,
    if_false]
  rw [gamma_ratio_exp k1 (by linarith), gamma_ratio_exp k2 (by linarith),
    kappa_base_split E1 k1 hE1 hk1, kappa_base_split E2 k2 hE2 hk2]
  ring

lemma energy_to_flux_kappa_pos (ei ef ec n kap : ℝ)
    (hn : 0 < n) (hec : 0 < ec) (hk : (1.5 : ℝ) < kap) (hef : 0 < ef)
    (hei : 0 ≤ ei) :
    0 < energy_to_flux_kappa ei ef ec n 511 kap false := by
  simp only [energy_to_flux_kappa, Bool.false_eq_true, if_false]
  have hk0 : (0 : ℝ) < kap := by linarith
  have hW : 0 < ec * (1 - 1.5 / kap) := w_pos ec kap hec hk
  have hq : (0 : ℝ) < ef / 511 := div_pos hef (by norm_num)
  have hgam : (0 : ℝ) < 1 + ef / 511 := by linarith
  have hsq : 0 < Real.sqrt ((1 + ef / 511) * (1 + ef / 511) - 1) := by
    apply Real.sqrt_pos.mpr
    nlinarith
  have hv : 0 < ckm * Real.sqrt ((1 + ef / 511) * (1 + ef / 511) - 1) / (1 + ef / 511) :=
    div_pos (mul_pos ckm_pos hsq) hgam
  have hden : 0 < ckm * ckm * (ec * (1 - 1.5 / kap)) * 2 * Real.pi * kap :=
    mul_pos (mul_pos (mul_pos (mul_pos (mul_pos ckm_pos ckm_pos) hW) two_pos)
      Real.pi_pos) hk0
  have hrp := Real.rpow_pos_of_pos
    (div_pos (by norm_num : (0:ℝ) < 511) hden) (1.5 : ℝ)
  have hGr : 0 < Real.Gamma (kap + 1) / Real.Gamma (kap - 0.5) :=
    div_pos (Real.Gamma_pos_of_pos (by linarith)) (Real.Gamma_pos_of_pos (by linarith))
  have hPb : (0 : ℝ) < 1 + ei / (kap * (ec * (1 - 1.5 / kap))) := by
    have : 0 ≤ ei / (kap * (ec * (1 - 1.5 / kap))) :=
      div_nonneg hei (le_of_lt (mul_pos hk0 hW))
    linarith
  have hP := Real.rpow_pos_of_pos hPb (-(kap + 1))
  exact mul_pos
    (div_pos (mul_pos (mul_pos (mul_pos (mul_pos (by norm_num : (0:ℝ) < 1e5)
      ckm_pos) ckm_pos) hv) hv) (by norm_num))
    (mul_pos (mul_pos (mul_pos hn hrp) hGr) hP)

/-- **C5 (amended).** The two-component kappa mixture evaluation
`calculate_electron_flux` equals `2^1.5` times the sum of the two
single-component `energy_to_flux` kappa evaluations: the mixture's
normalization divides by `π·kappa` where `energy_to_flux` divides by
`2π·kappa`, so each component is `2^1.5` times larger; apart from this
factor the mixture is exactly the component sum followed by one
phase-space-density-to-flux conversion at the boundary energy. -/
theorem calculate_electron_flux_mixture (ei ef k1 E1 n1 k2 E2 n2 : ℝ)
    (hk1 : (1.5 : ℝ) < k1) (hk2 : (1.5 : ℝ) < k2) (hE1 : 0 < E1)
    (hE2 : 0 < E2) :
    calculate_electron_flux ei ef k1 E1 n1 k2 E2 n2 =
      2 ^ (1.5 : ℝ) *
        (energy_to_flux_kappa ei ef E1 n1 511 k1 false +
          energy_to_flux_kappa ei ef E2 n2 511 k2 false) :=
  electron_flux_scale ei ef k1 E1 n1 k2 E2 n2 hk1 hk2 hE1 hE2

/-- Witness for the amended C5 theorem at a concrete parameter set. -/
theorem calculate_electron_flux_mixture_witness :
    calculate_electron_flux 0 511 2 4 1 2 4 1 =
      2 ^ (1.5 : ℝ) *
        (energy_to_flux_kappa 0 511 4 1 511 2 false +
          energy_to_flux_kappa 0 511 4 1 511 2 false) :=
  calculate_electron_flux_mixture 0 511 2 4 1 2 4 1 (by norm_num) (by norm_num)
    (by norm_num) (by norm_num)

/-- Counterexample to **C5** as stated: at `ei = 0`, `ef = 511` keV,
components `(kappa, E, n) = (2, 4, 1)` twice, the mixture differs from the
plain component sum (it is `2^1.5 ≈ 2.83` times larger, and the sum is
strictly positive). -/
theorem calculate_electron_flux_counterexample :
    calculate_electron_flux 0 511 2 4 1 2 4 1 ≠
      energy_to_flux_kappa 0 511 4 1 511 2 false +
        energy_to_flux_kappa 0 511 4 1 511 2 false := by
  have hscale := electron_flux_scale 0 511 2 4 1 2 4 1 (by norm_num) (by norm_num)
    (by norm_num) (by norm_num)
  have hpos : 0 < energy_to_flux_kappa 0 511 4 1 511 2 false :=
    energy_to_flux_kappa_pos 0 511 4 1 2 (by norm_num) (by norm_num) (by norm_num)
      (by norm_num) (by norm_num)
  rw [hscale]
  intro h
  have h2 : (1 : ℝ) < 2 ^ (1.5 : ℝ) :=
    (Real.one_lt_rpow_iff_of_pos (by norm_num)).mpr
      (Or.inl ⟨one_lt_two, by norm_num⟩)
  nlinarith [mul_pos (sub_pos.mpr h2) hpos]

section MaskLemmas

lemma ckmPP_pos : (0 : ℝ) < ckmPP := by rw [ckmPP]; norm_num

lemma csq_pos : (0 : ℝ) < csq := by rw [csq]; norm_num

lemma calculate_flux_pos (s : PPState) (fm : FluxMap) (i j : ℕ)
    (hsd : s.set_defaults = false) (hmc2 : 0 < s.mc2) (hec : 0 < s.ec)
    (hn : 0 < s.n) (hk : (1.5 : ℝ) < s.kappa)
    (hef : 0 < fm.final_E i j) (hei : 0 ≤ fm.init_E i j) :
    0 < calculate_flux s fm i j := by
  simp only [calculate_flux, hsd, Bool.false_eq_true, if_false]
  have hefR : (0 : ℝ) < ((fm.final_E i j : ℚ) : ℝ) := by exact_mod_cast hef
  have heiR : (0 : ℝ) ≤ ((fm.init_E i j : ℚ) : ℝ) := by exact_mod_cast hei
  have hk0 : (0 : ℝ) < s.kappa := by linarith
  have hW : 0 < s.ec * (1 - 1.5 / s.kappa) := w_pos s.ec s.kappa hec hk
  have hq : (0 : ℝ) < ((fm.final_E i j : ℚ) : ℝ) / s.mc2 := div_pos hefR hmc2
  have hgam : (0 : ℝ) < 1 + ((fm.final_E i j : ℚ) : ℝ) / s.mc2 := by linarith
  have hsq : 0 < Real.sqrt ((1 + ((fm.final_E i j : ℚ) : ℝ) / s.mc2) *
      (1 + ((fm.final_E i j : ℚ) : ℝ) / s.mc2) - 1) := by
    apply Real.sqrt_pos.mpr
    nlinarith
  have hv : 0 < ckmPP * Real.sqrt ((1 + ((fm.final_E i j : ℚ) : ℝ) / s.mc2) *
      (1 + ((fm.final_E i j : ℚ) : ℝ) / s.mc2) - 1) /
      (1 + ((fm.final_E i j : ℚ) : ℝ) / s.mc2) :=
    div_pos (mul_pos ckmPP_pos hsq) hgam
  have hden : 0 < csq * (s.ec * (1 - 1.5 / s.kappa)) * 2 * Real.pi * s.kappa :=
    mul_pos (mul_pos (mul_pos (mul_pos csq_pos hW) two_pos) Real.pi_pos) hk0
  have hrp := Real.rpow_pos_of_pos (div_pos hmc2 hden) (1.5 : ℝ)
  have hGr : 0 < Real.Gamma (s.kappa + 1) / Real.Gamma (s.kappa - 0.5) :=
    div_pos (Real.Gamma_pos_of_pos (by linarith)) (Real.Gamma_pos_of_pos (by linarith))
  have hPb : (0 : ℝ) < 1 + ((fm.init_E i j : ℚ) : ℝ) /
      (s.kappa * (s.ec * (1 - 1.5 / s.kappa))) := by
    have : 0 ≤ ((fm.init_E i j : ℚ) : ℝ) / (s.kappa * (s.ec * (1 - 1.5 / s.kappa))) :=
      div_nonneg heiR (le_of_lt (mul_pos hk0 hW))
    linarith
  have hP := Real.rpow_pos_of_pos hPb (-(s.kappa + 1))
  exact div_pos (mul_pos (mul_pos (mul_pos (mul_pos
    (mul_pos (mul_pos (mul_pos hn hrp) hGr) hP)
    (by norm_num : (0:ℝ) < 1e5)) csq_pos) hv) hv) hmc2

lemma instrFOVangle_lt_90_iff (pos v : Vec3)
    (hpos : 0 < pos.normSq) (hv : 0 < v.normSq) :
    instrFOVangle pos v < 90 ↔ 0 < pos.dot v := by
  have hnp : (0 : ℝ) < normR pos := by
    apply Real.sqrt_pos.mpr
    have : (0 : ℝ) < ((pos.normSq : ℚ) : ℝ) := by exact_mod_cast hpos
    rw [Vec3.normSq] at this
    push_cast at this
    nlinarith [this]
  have hnv : (0 : ℝ) < normR v := by
    apply Real.sqrt_pos.mpr
    have : (0 : ℝ) < ((v.normSq : ℚ) : ℝ) := by exact_mod_cast hv
    rw [Vec3.normSq] at this
    push_cast at this
    nlinarith [this]
  rw [instrFOVangle]
  have h180 : (0 : ℝ) < 180 / Real.pi := div_pos (by norm_num) Real.pi_pos
  rw [show (90 : ℝ) = (Real.pi / 2) * (180 / Real.pi) by
    field_simp
    ring]
  rw [mul_lt_mul_right h180]
  rw [Real.arccos_eq_pi_div_two_sub_arcsin, sub_lt_self_iff, Real.arcsin_pos]
  rw [div_pos_iff]
  constructor
  · rintro (⟨hd, -⟩ | ⟨-, hneg⟩)
    · exact_mod_cast hd
    · exact absurd (mul_pos hnp hnv) (not_lt.mpr (le_of_lt hneg))
  · intro hd
    exact Or.inl ⟨by exact_mod_cast hd, mul_pos hnp hnv⟩

end MaskLemmas

/-- **C2 (amended).** With the field-of-view mask enabled, `calculate_omni`
forces to zero every cell whose initial velocity makes an angle BELOW 90°
with the inverse boresight (`amask = angles < 90; diff_flux[amask] = 0.`),
and keeps unchanged every cell whose angle is 90° or more; for nonzero
position and velocity the angle is below 90° exactly when the velocity has
positive dot product with the observation position. -/
theorem fov_mask_policy (s : PPState) (fm : FluxMap) (initialE : Bool) (i j : ℕ) :
    (instrFOVangle fm.position (fm.init_v i j) < 90 →
      calculateOmniDiffFluxWith s fm true initialE i j = 0) ∧
    (¬ instrFOVangle fm.position (fm.init_v i j) < 90 →
      calculateOmniDiffFluxWith s fm true initialE i j =
        preFovFlux s fm initialE i j) ∧
    (0 < fm.position.normSq → 0 < (fm.init_v i j).normSq →
      (instrFOVangle fm.position (fm.init_v i j) < 90 ↔
        0 < fm.position.dot (fm.init_v i j))) := by
  refine ⟨?_, ?_, fun h1 h2 => instrFOVangle_lt_90_iff _ _ h1 h2⟩
  · intro hlt
    show fovMask fm (preFovFlux s fm initialE) i j = 0
    simp only [fovMask]
    rw [if_pos hlt]
  · intro hge
    show fovMask fm (preFovFlux s fm initialE) i j = preFovFlux s fm initialE i j
    simp only [fovMask]
    rw [if_neg hge]

/-- Counterexample to **C2** as stated: in `fmC2` the single cell's velocity
points along the observation position (FOV angle 0° < 90°); the claim says
such a cell keeps its evaluated flux, but the code zeroes it — while the
evaluated (geometrically unmasked) flux at that cell is nonzero. -/
theorem fov_mask_counterexample :
    instrFOVangle fmC2.position (fmC2.init_v 0 0) < 90 ∧
    calculateOmniDiffFlux fmC2 true false 0 0 = 0 ∧
    preFovFlux ppSEP fmC2 false 0 0 ≠ 0 := by
  have hangle : instrFOVangle fmC2.position (fmC2.init_v 0 0) < 90 := by
    rw [instrFOVangle_lt_90_iff fmC2.position (fmC2.init_v 0 0)
      (by norm_num [fmC2, Vec3.normSq]) (by norm_num [fmC2, Vec3.normSq])]
    norm_num [fmC2, Vec3.dot]
  refine ⟨hangle, ?_, ?_⟩
  · show fovMask fmC2 (preFovFlux ppSEP fmC2 false) 0 0 = 0
    simp only [fovMask]
    rw [if_pos hangle]
  · have hacc : hasAccess (fmC2.final_x 0 0) = true := by
      rw [show fmC2.final_x 0 0 = ⟨15, 0, 0⟩ from rfl, hasAccess]
      exact decide_eq_true (by rw [Vec3.normSq]; norm_num)
    have hpos : 0 < calculate_flux ppSEP fmC2 0 0 :=
      calculate_flux_pos ppSEP fmC2 0 0 rfl
        (by norm_num [ppSEP, set_source_parameters, PPState.init])
        (by norm_num [ppSEP, set_source_parameters, PPState.init])
        (by norm_num [ppSEP, set_source_parameters, PPState.init])
        (by norm_num [ppSEP, set_source_parameters, PPState.init])
        (by norm_num [fmC2]) (by norm_num [fmC2])
    show geoMask fmC2 (calculate_flux ppSEP fmC2) 0 0 ≠ 0
    simp only [geoMask]
    rw [if_pos hacc]
    exact ne_of_gt hpos

/-- **C4 (amended).** In normal mode (`initialE = False`) every cell whose
`final_x` magnitude is below 14.99 Re has zero differential flux in the
masked `FluxGrid`, for every distribution state and with or without the FOV
mask; in initial-energy mode the geometric access mask is NOT applied — the
grid is the bare distribution evaluation with `final_E` overwritten by
`init_E`. -/
theorem calculate_omni_geo_mask (s : PPState) (fm : FluxMap) (fov : Bool)
    (i j : ℕ) :
    (hasAccess (fm.final_x i j) = false →
      calculateOmniDiffFluxWith s fm fov false i j = 0) ∧
    (calculateOmniDiffFluxWith s fm false true i j =
      calculate_flux s { fm with final_E := fm.init_E } i j) := by
  constructor
  · intro hmask
    have hpre : preFovFlux s fm false i j = 0 := by
      show geoMask fm (calculate_flux s fm) i j = 0
      simp only [geoMask]
      rw [hmask]
      simp
    cases fov with
    | false => exact hpre
    | true =>
        show fovMask fm (preFovFlux s fm false) i j = 0
        simp only [fovMask]
        split_ifs
        · rfl
        · exact hpre
  · rfl

/-- Counterexample to **C4** as stated: in initial-energy mode the cell of
`fmC4` whose final position is at the origin (no geometric access) has
NONZERO flux — the geometric mask is skipped when `initialE` is set. -/
theorem geo_mask_initialE_counterexample :
    hasAccess (fmC4.final_x 0 0) = false ∧
    calculateOmniDiffFlux fmC4 false true 0 0 ≠ 0 := by
  constructor
  · rw [show fmC4.final_x 0 0 = ⟨0, 0, 0⟩ from rfl, hasAccess]
    exact decide_eq_false (by rw [Vec3.normSq]; norm_num)
  · have hpos : 0 < calculate_flux ppSEP { fmC4 with final_E := fmC4.init_E } 0 0 :=
      calculate_flux_pos ppSEP _ 0 0 rfl
        (by norm_num [ppSEP, set_source_parameters, PPState.init])
        (by norm_num [ppSEP, set_source_parameters, PPState.init])
        (by norm_num [ppSEP, set_source_parameters, PPState.init])
        (by norm_num [ppSEP, set_source_parameters, PPState.init])
        (by norm_num [fmC4]) (by norm_num [fmC4])
    have heq : calculateOmniDiffFlux fmC4 false true 0 0 =
        calculate_flux ppSEP { fmC4 with final_E := fmC4.init_E } 0 0 := rfl
    rw [heq]
    exact ne_of_gt hpos
